import Mathlib

/-!
Shallow embedding of the Closet-app calendar/analytics aggregation logic
(`calendar.tsx`): the date-key helper, the month-grid builder, the
outfit-index construction, the streak computation and the most-worn-outfit
grouping, together with theorems settling the specification claims.

Dates are modelled time-zone-naively, as the specification prescribes: a
JavaScript `Date` is a calendar triple (year, zero-based month, one-based
day-of-month) plus a time-of-day in milliseconds.
-/

/-- A JavaScript `Date`, time-zone-naive: `getFullYear`, `getMonth`
(zero-based), `getDate` (one-based) and the time of day in milliseconds. -/
structure JSDate where
  year : Int
  month : Nat
  day : Nat
  msOfDay : Nat
deriving DecidableEq, Repr

/-- Gregorian leap-year rule, as used by the JavaScript `Date` calendar. -/
def isLeap (y : Int) : Bool :=
  (y % 4 == 0 && y % 100 != 0) || (y % 400 == 0)

/-- Number of days in a (zero-based) month of a given year, the value JS
computes via `new Date(year, month + 1, 0).getDate()`. -/
def daysInMonth (y : Int) (m : Nat) : Nat :=
  match m with
  | 0 => 31
  | 1 => if isLeap y then 29 else 28
  | 2 => 31
  | 3 => 30
  | 4 => 31
  | 5 => 30
  | 6 => 31
  | 7 => 31
  | 8 => 30
  | 9 => 31
  | 10 => 30
  | _ => 31

/-- The date is one a JavaScript `Date` object can hold: month index below
12, day within the month, time of day below 24h. -/
def JSDate.Valid (d : JSDate) : Prop :=
  d.month ≤ 11 ∧ 1 ≤ d.day ∧ d.day ≤ daysInMonth d.year d.month ∧ d.msOfDay < 86400000

instance (d : JSDate) : Decidable d.Valid := by
  unfold JSDate.Valid
  infer_instance

/-- The decimal digit character for `n < 10`. -/
def digitChar (n : Nat) : Char := Char.ofNat (48 + n)

/-- Little-endian decimal digit characters of `n` (empty for `0`), with an
explicit fuel argument so the definition is structural. -/
def natDigitsAux : Nat → Nat → List Char
  | 0, _ => []
  | _ + 1, 0 => []
  | fuel + 1, n + 1 => digitChar ((n + 1) % 10) :: natDigitsAux fuel ((n + 1) / 10)

/-- Big-endian decimal digit characters of `n` (empty for `0`). -/
def natDigits (n : Nat) : List Char := (natDigitsAux n n).reverse

/-- `n` printed in decimal, left-padded with `'0'` to at least `k` chars:
the digit grouping used by `Date.prototype.toISOString`. -/
def padNum (k n : Nat) : List Char :=
  List.replicate (k - (natDigits n).length) '0' ++ natDigits n

/-- The year field of an ISO date string as produced by `toISOString`:
four digits for years 0–9999, otherwise an explicit sign and six digits. -/
def yearChars (y : Int) : List Char :=
  if y < 0 then '-' :: padNum 6 (-y).toNat
  else if y ≤ 9999 then padNum 4 y.toNat
  else '+' :: padNum 6 y.toNat

/-- `toDateKey` from `calendar.tsx`: the date part of `toISOString`, a
canonical `YYYY-MM-DD` string.  The time-of-day component is dropped. -/
def toDateKey (d : JSDate) : String :=
  ⟨yearChars d.year ++ '-' :: (padNum 2 (d.month + 1) ++ '-' :: padNum 2 d.day)⟩

/-- Two dates fall on the same calendar day (time-of-day ignored). -/
def sameCalendarDay (a b : JSDate) : Prop :=
  a.year = b.year ∧ a.month = b.month ∧ a.day = b.day

instance (a b : JSDate) : Decidable (sameCalendarDay a b) := by
  unfold sameCalendarDay
  infer_instance

/-- The JS statement `checking.setDate(checking.getDate() - 1)`: step one
calendar day backwards, rolling over month and year boundaries. -/
def prevDay (d : JSDate) : JSDate :=
  if 2 ≤ d.day then { d with day := d.day - 1 }
  else if 1 ≤ d.month then
    { d with month := d.month - 1, day := daysInMonth d.year (d.month - 1) }
  else
    { year := d.year - 1, month := 11, day := 31, msOfDay := d.msOfDay }

/-- `k`-fold iterate of `prevDay`. -/
def prevIter : Nat → JSDate → JSDate
  | 0, d => d
  | k + 1, d => prevIter k (prevDay d)

/-- A strictly monotone linearisation of calendar triples, used to show the
days visited by the backward streak walk are pairwise distinct. -/
def dateOrd (d : JSDate) : Int :=
  d.year * 372 + d.month * 31 + d.day

/-! ### Decimal-digit lemmas: `padNum` is injective and has predictable length -/

/-- Numeric value of a decimal digit character. -/
def charVal (c : Char) : Nat := c.toNat - 48

/-- Value of a little-endian digit-character list. -/
def valLE : List Char → Nat
  | [] => 0
  | c :: cs => charVal c + 10 * valLE cs

/-- Value of a big-endian digit-character list. -/
def valBE (l : List Char) : Nat := valLE l.reverse

theorem charVal_digitChar {d : Nat} (h : d < 10) : charVal (digitChar d) = d := by
  interval_cases d <;> decide

theorem valLE_natDigitsAux : ∀ fuel n, n ≤ fuel → valLE (natDigitsAux fuel n) = n := by
  intro fuel
  induction fuel with
  | zero => intro n hn; interval_cases n; rfl
  | succ f ih =>
    intro n hn
    match n with
    | 0 => rfl
    | n + 1 =>
      have hd : (n + 1) / 10 ≤ f := by
        have := Nat.div_lt_self (Nat.succ_pos n) (by norm_num : 1 < 10)
        omega
      simp only [natDigitsAux, valLE, charVal_digitChar (Nat.mod_lt _ (by norm_num)),
        ih _ hd]
      omega

theorem valLE_append (l₁ l₂ : List Char) :
    valLE (l₁ ++ l₂) = valLE l₁ + 10 ^ l₁.length * valLE l₂ := by
  induction l₁ with
  | nil => simp [valLE]
  | cons c cs ih => simp [valLE, ih, List.length_cons, pow_succ]; ring

theorem valLE_replicate_zero (z : Nat) : valLE (List.replicate z '0') = 0 := by
  induction z with
  | zero => rfl
  | succ n ih => simp [List.replicate_succ, valLE, ih]; rfl

theorem valBE_padNum (k n : Nat) : valBE (padNum k n) = n := by
  unfold valBE padNum natDigits
  rw [List.reverse_append, List.reverse_replicate, List.reverse_reverse,
    valLE_append, valLE_replicate_zero, valLE_natDigitsAux n n le_rfl]
  simp

theorem padNum_inj {k a b : Nat} (h : padNum k a = padNum k b) : a = b := by
  have := congrArg valBE h
  rwa [valBE_padNum, valBE_padNum] at this

theorem length_natDigitsAux_le :
    ∀ fuel n k, n < 10 ^ k → (natDigitsAux fuel n).length ≤ k := by
  intro fuel
  induction fuel with
  | zero => intro n k _; simp [natDigitsAux]
  | succ f ih =>
    intro n k hn
    match n with
    | 0 => simp [natDigitsAux]
    | n + 1 =>
      match k with
      | 0 => simp at hn
      | k + 1 =>
        have hdiv : (n + 1) / 10 < 10 ^ k := by
          rw [Nat.div_lt_iff_lt_mul (by norm_num)]
          calc n + 1 < 10 ^ (k + 1) := hn
          _ = 10 ^ k * 10 := by rw [pow_succ]
        have := ih ((n + 1) / 10) k hdiv
        simp only [natDigitsAux, List.length_cons]
        omega

theorem length_padNum {k n : Nat} (h : n < 10 ^ k) : (padNum k n).length = k := by
  have hle : (natDigits n).length ≤ k := by
    unfold natDigits
    rw [List.length_reverse]
    exact length_natDigitsAux_le n n k h
  simp [padNum, List.length_append, List.length_replicate]
  omega

theorem mem_natDigitsAux_digit :
    ∀ fuel n c, c ∈ natDigitsAux fuel n → ∃ d, d < 10 ∧ c = digitChar d := by
  intro fuel
  induction fuel with
  | zero => intro n c hc; simp [natDigitsAux] at hc
  | succ f ih =>
    intro n c hc
    match n with
    | 0 => simp [natDigitsAux] at hc
    | n + 1 =>
      simp only [natDigitsAux, List.mem_cons] at hc
      rcases hc with h | h
      · exact ⟨(n + 1) % 10, Nat.mod_lt _ (by norm_num), h⟩
      · exact ih _ _ h

theorem mem_padNum_digit {k n : Nat} {c : Char} (hc : c ∈ padNum k n) :
    ∃ d, d < 10 ∧ c = digitChar d := by
  simp only [padNum, List.mem_append, List.mem_replicate] at hc
  rcases hc with ⟨_, h⟩ | h
  · exact ⟨0, by norm_num, h⟩
  · exact mem_natDigitsAux_digit n n c (by simpa [natDigits] using h)

theorem digitChar_ne_dash {d : Nat} (h : d < 10) : digitChar d ≠ '-' := by
  interval_cases d <;> decide

theorem digitChar_ne_plus {d : Nat} (h : d < 10) : digitChar d ≠ '+' := by
  interval_cases d <;> decide

/-! ### Injectivity of the date key -/

theorem mem_of_cons_eq {c : Char} {rest l : List Char} (h : c :: rest = l) : c ∈ l := by
  subst h; exact List.mem_cons_self c rest

theorem dash_ne_padNum {rest : List Char} {k n : Nat} :
    '-' :: rest ≠ padNum k n := by
  intro h
  obtain ⟨d, hd, hcd⟩ := mem_padNum_digit (mem_of_cons_eq h)
  exact digitChar_ne_dash hd hcd.symm

theorem plus_ne_padNum {rest : List Char} {k n : Nat} :
    '+' :: rest ≠ padNum k n := by
  intro h
  obtain ⟨d, hd, hcd⟩ := mem_padNum_digit (mem_of_cons_eq h)
  exact digitChar_ne_plus hd hcd.symm

theorem yearChars_inj {a b : Int} (h : yearChars a = yearChars b) : a = b := by
  unfold yearChars at h
  split_ifs at h with ha hb ha' hb' hb'' hb'''
  · have := padNum_inj (List.cons.inj h).2
    omega
  · exact absurd h dash_ne_padNum
  · exact absurd ((List.cons.inj h).1) (by decide)
  · exact absurd h.symm dash_ne_padNum
  · have := padNum_inj h
    omega
  · exact absurd h.symm plus_ne_padNum
  · exact absurd ((List.cons.inj h).1) (by decide)
  · exact absurd h plus_ne_padNum
  · have := padNum_inj (List.cons.inj h).2
    omega

theorem toDateKey_eq_iff {d₁ d₂ : JSDate}
    (h1m : d₁.month ≤ 11) (h1d : d₁.day ≤ 31)
    (h2m : d₂.month ≤ 11) (h2d : d₂.day ≤ 31) :
    toDateKey d₁ = toDateKey d₂ ↔ sameCalendarDay d₁ d₂ := by
  constructor
  · intro h
    have hl := congrArg String.data h
    simp only [toDateKey] at hl
    have hm1 : d₁.month + 1 < 10 ^ 2 := by norm_num; omega
    have hm2 : d₂.month + 1 < 10 ^ 2 := by norm_num; omega
    have hd1 : d₁.day < 10 ^ 2 := by norm_num; omega
    have hd2 : d₂.day < 10 ^ 2 := by norm_num; omega
    have hsuf : ('-' :: (padNum 2 (d₁.month + 1) ++ '-' :: padNum 2 d₁.day)).length =
        ('-' :: (padNum 2 (d₂.month + 1) ++ '-' :: padNum 2 d₂.day)).length := by
      simp [List.length_cons, List.length_append,
        length_padNum hm1, length_padNum hm2, length_padNum hd1, length_padNum hd2]
    obtain ⟨hy, hrest⟩ := List.append_inj' hl hsuf
    have hmd := (List.cons.inj hrest).2
    obtain ⟨hm, hdd⟩ := List.append_inj hmd (by rw [length_padNum hm1, length_padNum hm2])
    refine ⟨yearChars_inj hy, ?_, ?_⟩
    · have := padNum_inj hm; omega
    · exact padNum_inj (List.cons.inj hdd).2
  · rintro ⟨hy, hm, hd⟩
    unfold toDateKey
    rw [hy, hm, hd]

/-! ### Outfit records and the date-keyed outfit index -/

/-- One saved outfit, matching the `OutfitEntry` type of `calendar.tsx`
with the date already parsed into its calendar components. -/
structure OutfitEntry where
  mongoId : String
  userId : String
  date : JSDate
  garmentIds : List String
  previewImage : String
deriving DecidableEq, Repr

/-- The `outfitMap` construction of `calendar.tsx`: a record built by
assigning `map[toDateKey(o.date)] = o` for each outfit in order.  Modelled
as an association list where later assignments shadow earlier ones. -/
def buildOutfitIndex (outfits : List OutfitEntry) : List (String × OutfitEntry) :=
  outfits.foldl (fun m o => (toDateKey o.date, o) :: m) []

/-- Record lookup `map[key]`: the most recent assignment to `key`. -/
def indexFind (m : List (String × OutfitEntry)) (k : String) : Option OutfitEntry :=
  (m.find? (fun p => p.1 == k)).map (fun p => p.2)

/-! ### The streak walk -/

/-- Body of the `while (true)` loop of `getStreak`: count a hit and step one
day back while `outfitMap[toDateKey(checking)]` is truthy; stop at the first
miss.  The fuel argument bounds the recursion; `getStreak` supplies fuel
that is provably never exhausted. -/
def streakAux (idx : List (String × OutfitEntry)) : JSDate → Nat → Nat
  | _, 0 => 0
  | checking, fuel + 1 =>
    if (indexFind idx (toDateKey checking)).isSome then
      streakAux idx (prevDay checking) fuel + 1
    else 0

/-- `getStreak` from `calendar.tsx`, with the component state (`outfitMap`)
and the wall-clock date (`new Date()`) passed as explicit arguments, as the
specification's aggregator signature `currentStreak(outfitIndex, today)`
prescribes. -/
def getStreak (idx : List (String × OutfitEntry)) (today : JSDate) : Nat :=
  streakAux idx today (idx.length + 1)

/-! ### Validity and distinctness along the backward walk -/

theorem daysInMonth_le (y : Int) (m : Nat) : daysInMonth y m ≤ 31 := by
  unfold daysInMonth
  split <;> first | omega | (split <;> omega)

theorem daysInMonth_pos (y : Int) (m : Nat) : 1 ≤ daysInMonth y m := by
  unfold daysInMonth
  split <;> first | omega | (split <;> omega)

theorem prevDay_valid {d : JSDate} (h : d.Valid) : (prevDay d).Valid := by
  obtain ⟨hm, hd1, hd2, hms⟩ := h
  unfold prevDay
  split_ifs with h2 h3
  · refine ⟨hm, ?_, ?_, hms⟩
    · show 1 ≤ d.day - 1
      omega
    · show d.day - 1 ≤ daysInMonth d.year d.month
      omega
  · refine ⟨?_, daysInMonth_pos _ _, le_rfl, hms⟩
    show d.month - 1 ≤ 11
    omega
  · refine ⟨?_, ?_, ?_, hms⟩
    · show (11 : Nat) ≤ 11
      omega
    · show 1 ≤ 31
      omega
    · show (31 : Nat) ≤ daysInMonth (d.year - 1) 11
      unfold daysInMonth
      norm_num

theorem dateOrd_prevDay {d : JSDate} (h : d.Valid) :
    dateOrd (prevDay d) < dateOrd d := by
  obtain ⟨hm, hd1, hd2, _⟩ := h
  unfold prevDay
  split_ifs with h2 h3
  · show d.year * 372 + (d.month : Int) * 31 + ((d.day - 1 : Nat) : Int) <
      d.year * 372 + (d.month : Int) * 31 + (d.day : Int)
    omega
  · have := daysInMonth_le d.year (d.month - 1)
    have hdle := le_trans hd2 (daysInMonth_le d.year d.month)
    show d.year * 372 + ((d.month - 1 : Nat) : Int) * 31 +
        ((daysInMonth d.year (d.month - 1) : Nat) : Int) <
      d.year * 372 + (d.month : Int) * 31 + (d.day : Int)
    omega
  · show (d.year - 1) * 372 + ((11 : Nat) : Int) * 31 + ((31 : Nat) : Int) <
      d.year * 372 + (d.month : Int) * 31 + (d.day : Int)
    omega

theorem prevIter_valid : ∀ (k : Nat) {d : JSDate}, d.Valid → (prevIter k d).Valid := by
  intro k
  induction k with
  | zero => intro d h; exact h
  | succ n ih => intro d h; exact ih (prevDay_valid h)

theorem dateOrd_prevIter_step : ∀ (k : Nat) (d : JSDate), d.Valid →
    dateOrd (prevIter (k + 1) d) < dateOrd (prevIter k d) := by
  intro k
  induction k with
  | zero => intro d hd; exact dateOrd_prevDay hd
  | succ n ih => intro d hd; exact ih (prevDay d) (prevDay_valid hd)

theorem dateOrd_prevIter_strict {d : JSDate} (h : d.Valid) {i j : Nat}
    (hij : i < j) : dateOrd (prevIter j d) < dateOrd (prevIter i d) := by
  obtain ⟨s, rfl⟩ : ∃ s, j = i + s + 1 := ⟨j - i - 1, by omega⟩
  clear hij
  induction s with
  | zero => exact dateOrd_prevIter_step i d h
  | succ n ih => exact lt_trans (dateOrd_prevIter_step (i + n + 1) d h) ih

theorem toDateKey_prevIter_injOn {d : JSDate} (h : d.Valid) {i j : Nat}
    (hk : toDateKey (prevIter i d) = toDateKey (prevIter j d)) : i = j := by
  by_contra hne
  have hvi := prevIter_valid i h
  have hvj := prevIter_valid j h
  have hsame := (toDateKey_eq_iff hvi.1 (le_trans hvi.2.2.1 (daysInMonth_le _ _))
    hvj.1 (le_trans hvj.2.2.1 (daysInMonth_le _ _))).mp hk
  have hord : dateOrd (prevIter i d) = dateOrd (prevIter j d) := by
    unfold dateOrd
    rw [hsame.1, hsame.2.1, hsame.2.2]
  rcases Nat.lt_or_ge i j with hij | hij
  · exact absurd hord (ne_of_gt (dateOrd_prevIter_strict h hij))
  · have : j < i := by omega
    exact absurd hord (ne_of_lt (dateOrd_prevIter_strict h this))

/-! ### Behaviour of the streak loop -/

theorem indexFind_isSome_iff (m : List (String × OutfitEntry)) (k : String) :
    (indexFind m k).isSome = true ↔ k ∈ m.map Prod.fst := by
  unfold indexFind
  simp only [Option.isSome_map', List.find?_isSome, List.mem_map, beq_iff_eq]

theorem streakAux_hits (idx : List (String × OutfitEntry)) :
    ∀ fuel (d : JSDate) k, k < streakAux idx d fuel →
      (indexFind idx (toDateKey (prevIter k d))).isSome = true := by
  intro fuel
  induction fuel with
  | zero => intro d k hk; simp [streakAux] at hk
  | succ f ih =>
    intro d k hk
    cases hb : (indexFind idx (toDateKey d)).isSome with
    | false => simp [streakAux, hb] at hk
    | true =>
      simp only [streakAux, hb, if_true] at hk
      match k with
      | 0 => simpa [prevIter] using hb
      | k + 1 =>
        have := ih (prevDay d) k (by omega)
        simpa [prevIter] using this

theorem streakAux_miss (idx : List (String × OutfitEntry)) :
    ∀ fuel (d : JSDate), streakAux idx d fuel < fuel →
      (indexFind idx (toDateKey (prevIter (streakAux idx d fuel) d))).isSome = false := by
  intro fuel
  induction fuel with
  | zero => intro d hd; omega
  | succ f ih =>
    intro d hd
    cases hb : (indexFind idx (toDateKey d)).isSome with
    | false => simp [streakAux, hb, prevIter]
    | true =>
      simp only [streakAux, hb, if_true] at hd ⊢
      have := ih (prevDay d) (by omega)
      simpa [prevIter] using this

theorem streakAux_ge (idx : List (String × OutfitEntry)) :
    ∀ fuel (d : JSDate) n, n < fuel →
      (∀ k, k < n → (indexFind idx (toDateKey (prevIter k d))).isSome = true) →
      n ≤ streakAux idx d fuel := by
  intro fuel
  induction fuel with
  | zero => intro d n hn _; omega
  | succ f ih =>
    intro d n hn hhits
    match n with
    | 0 => exact Nat.zero_le _
    | m + 1 =>
      have h0 : (indexFind idx (toDateKey d)).isSome = true := by
        simpa [prevIter] using hhits 0 (by omega)
      simp only [streakAux, h0, if_true]
      have hm : m ≤ streakAux idx (prevDay d) f := by
        refine ih (prevDay d) m (by omega) ?_
        intro k hk
        have := hhits (k + 1) (by omega)
        simpa [prevIter] using this
      omega

/-- The streak never exceeds the number of index entries: the walked days
are pairwise distinct and each hit consumes a key of the index. -/
theorem getStreak_le_length (idx : List (String × OutfitEntry)) (today : JSDate)
    (h : today.Valid) : getStreak idx today ≤ idx.length := by
  classical
  set n := getStreak idx today with hn
  set chain : List String := (List.range n).map (fun k => toDateKey (prevIter k today)) with hchain
  have hnodup : chain.Nodup := by
    refine List.Nodup.map_on ?_ (List.nodup_range n)
    intro x hx y hy hxy
    exact toDateKey_prevIter_injOn h hxy
  have hsub : ∀ s ∈ chain, s ∈ idx.map Prod.fst := by
    intro s hs
    rw [hchain] at hs
    simp only [List.mem_map, List.mem_range] at hs
    obtain ⟨k, hk, rfl⟩ := hs
    rw [← indexFind_isSome_iff]
    exact streakAux_hits idx (idx.length + 1) today k hk
  have hcard : chain.toFinset.card = n := by
    rw [List.toFinset_card_of_nodup hnodup, hchain, List.length_map, List.length_range]
  have hsubf : chain.toFinset ⊆ (idx.map Prod.fst).toFinset := by
    intro s hs
    rw [List.mem_toFinset] at hs ⊢
    exact hsub s hs
  have h1 := Finset.card_le_card hsubf
  have h2 := List.toFinset_card_le (idx.map Prod.fst)
  rw [List.length_map] at h2
  omega

theorem getStreak_hits (idx : List (String × OutfitEntry)) (today : JSDate)
    {k : Nat} (hk : k < getStreak idx today) :
    (indexFind idx (toDateKey (prevIter k today))).isSome = true :=
  streakAux_hits idx (idx.length + 1) today k hk

theorem getStreak_miss (idx : List (String × OutfitEntry)) (today : JSDate)
    (h : today.Valid) :
    (indexFind idx (toDateKey (prevIter (getStreak idx today) today))).isSome = false := by
  have hle := getStreak_le_length idx today h
  exact streakAux_miss idx (idx.length + 1) today (by unfold getStreak at hle; omega)

theorem getStreak_zero_of_miss (idx : List (String × OutfitEntry)) (today : JSDate)
    (h : (indexFind idx (toDateKey today)).isNone = true) : getStreak idx today = 0 := by
  unfold getStreak
  have hb : (indexFind idx (toDateKey today)).isSome = false := by
    cases he : indexFind idx (toDateKey today)
    · rfl
    · rw [he] at h; simp at h
  simp [streakAux, hb]

theorem getStreak_mono {J I : List (String × OutfitEntry)} (hJI : J.Sublist I)
    {today : JSDate} (h : today.Valid) : getStreak J today ≤ getStreak I today := by
  have hmem : ∀ k, (indexFind J k).isSome = true → (indexFind I k).isSome = true := by
    intro k hk
    rw [indexFind_isSome_iff] at hk ⊢
    exact (hJI.map Prod.fst).subset hk
  refine streakAux_ge I (I.length + 1) today (getStreak J today) ?_ ?_
  · have h1 := getStreak_le_length J today h
    have h2 := hJI.length_le
    omega
  · intro k hk
    exact hmem _ (streakAux_hits J (J.length + 1) today k hk)

/-! ### The month grid -/

/-- Days from 1970-01-01 to the given civil date (month one-based here),
the day number ECMAScript `MakeDay` computes internally for a `Date`. -/
def daysFromCivil (y : Int) (m d : Nat) : Int :=
  let y2 : Int := if m ≤ 2 then y - 1 else y
  let era : Int := y2.fdiv 400
  let yoe : Int := y2.emod 400
  let doy : Int := (153 * (if m ≤ 2 then (m : Int) + 9 else (m : Int) - 3) + 2) / 5 + d - 1
  let doe : Int := yoe * 365 + yoe / 4 - yoe / 100 + doy
  era * 146097 + doe - 719468

/-- `Date.prototype.getDay`: weekday index, 0 = Sunday (month one-based). -/
def getDay (y : Int) (m d : Nat) : Nat :=
  ((daysFromCivil y m d + 4).emod 7).toNat

/-- The `while (grid.length % 7 !== 0) grid.push(null)` loop of
`getMonthGrid`: append blanks until the length is a multiple of 7. -/
def padBlanks (l : List (Option JSDate)) : List (Option JSDate) :=
  if h : l.length % 7 = 0 then l else padBlanks (l ++ [none])
termination_by (7 - l.length % 7) % 7
decreasing_by
  simp only [List.length_append, List.length_cons, List.length_nil]
  omega

/-- `getMonthGrid` from `calendar.tsx` (month zero-based): leading blanks
for the weekday of the 1st, one cell per day of the month, trailing blanks
to a multiple of 7. -/
def getMonthGrid (year : Int) (month : Nat) : List (Option JSDate) :=
  padBlanks
    (List.replicate (getDay year (month + 1) 1) none ++
      (List.range (daysInMonth year month)).map
        (fun i => some ⟨year, month, i + 1, 0⟩))

theorem padBlanks_eq_append :
    ∀ n (l : List (Option JSDate)), (7 - l.length % 7) % 7 = n →
      padBlanks l = l ++ List.replicate n none := by
  intro n
  induction n with
  | zero =>
    intro l hl
    have h0 : l.length % 7 = 0 := by omega
    rw [padBlanks, dif_pos h0, List.replicate_zero, List.append_nil]
  | succ m ih =>
    intro l hl
    have h0 : ¬ l.length % 7 = 0 := by omega
    rw [padBlanks, dif_neg h0]
    have hlen : (7 - (l ++ [none]).length % 7) % 7 = m := by
      simp only [List.length_append, List.length_cons, List.length_nil]
      omega
    rw [ih _ hlen, List.append_assoc]
    congr 1

/-! ### Most-worn-outfit grouping -/

/-- Lexicographic code-unit comparison of character lists, the order used
by the default JavaScript `Array.prototype.sort` on strings. -/
def lexLe : List Char → List Char → Bool
  | [], _ => true
  | _ :: _, [] => false
  | a :: as, b :: bs =>
    if a.toNat < b.toNat then true
    else if b.toNat < a.toNat then false
    else lexLe as bs

/-- The string order of the JavaScript default sort, as a relation. -/
def StrLe (a b : String) : Prop := lexLe a.data b.data = true

instance : DecidableRel StrLe := fun a b =>
  inferInstanceAs (Decidable (lexLe a.data b.data = true))

theorem lexLe_total : ∀ a b : List Char, lexLe a b = true ∨ lexLe b a = true := by
  intro a
  induction a with
  | nil => intro b; left; rfl
  | cons x xs ih =>
    intro b
    cases b with
    | nil => right; rfl
    | cons y ys =>
      rcases Nat.lt_trichotomy x.toNat y.toNat with h | h | h
      · left; simp [lexLe, h]
      · rcases ih ys with h' | h' <;> [left; right] <;> simp [lexLe, h, h']
      · right; simp [lexLe, h, Nat.lt_asymm h]

theorem lexLe_antisymm : ∀ a b : List Char,
    lexLe a b = true → lexLe b a = true → a = b := by
  intro a
  induction a with
  | nil =>
    intro b _ hba
    cases b with
    | nil => rfl
    | cons y ys => simp [lexLe] at hba
  | cons x xs ih =>
    intro b hab hba
    cases b with
    | nil => simp [lexLe] at hab
    | cons y ys =>
      rcases Nat.lt_trichotomy x.toNat y.toNat with h | h | h
      · simp [lexLe, h, Nat.lt_asymm h] at hba
      · have hx : x = y := Char.eq_of_val_eq (UInt32.toNat.inj h)
        subst hx
        simp only [lexLe, lt_irrefl, if_false] at hab hba
        rw [ih ys hab hba]
      · simp [lexLe, h, Nat.lt_asymm h] at hab

theorem lexLe_trans : ∀ a b c : List Char,
    lexLe a b = true → lexLe b c = true → lexLe a c = true := by
  intro a
  induction a with
  | nil => intro b c _ _; rfl
  | cons x xs ih =>
    intro b c hab hbc
    cases b with
    | nil => simp [lexLe] at hab
    | cons y ys =>
      cases c with
      | nil => simp [lexLe] at hbc
      | cons z zs =>
        rcases Nat.lt_trichotomy x.toNat y.toNat with h1 | h1 | h1
        · rcases Nat.lt_trichotomy y.toNat z.toNat with h2 | h2 | h2
          · simp [lexLe, Nat.lt_trans h1 h2]
          · have hlt : x.toNat < z.toNat := by omega
            simp [lexLe, hlt]
          · simp [lexLe, Nat.lt_asymm h2, h2] at hbc
        · have hxy : x = y := Char.eq_of_val_eq (UInt32.toNat.inj h1)
          subst hxy
          simp only [lexLe, Nat.lt_irrefl, if_false] at hab
          rcases Nat.lt_trichotomy x.toNat z.toNat with h2 | h2 | h2
          · simp [lexLe, h2]
          · have hxz : x = z := Char.eq_of_val_eq (UInt32.toNat.inj h2)
            subst hxz
            simp only [lexLe, Nat.lt_irrefl, if_false] at hbc ⊢
            exact ih ys zs hab hbc
          · simp [lexLe, Nat.lt_asymm h2, h2] at hbc
        · simp [lexLe, Nat.lt_asymm h1, h1] at hab

instance : IsTotal String StrLe := ⟨fun a b => lexLe_total a.data b.data⟩

instance : IsTrans String StrLe := ⟨fun a b c => lexLe_trans a.data b.data c.data⟩

instance : IsAntisymm String StrLe :=
  ⟨fun a b hab hba => String.ext (lexLe_antisymm a.data b.data hab hba)⟩

/-- The outfit signature of `getMostWornThisMonth`:
`[...o.garmentIds].sort().join(',')`. -/
def signature (o : OutfitEntry) : String :=
  String.intercalate "," (List.insertionSort StrLe o.garmentIds)

/-- The month filter of `getMostWornThisMonth`: keep outfits whose parsed
date has the reference year and (zero-based) month. -/
def monthFilter (outfits : List OutfitEntry) (year : Int) (month : Nat) :
    List OutfitEntry :=
  outfits.filter (fun o => o.date.year == year && o.date.month == month)

/-- The own property keys of `Object.prototype`.  The `countMap` of
`getMostWornThisMonth` is a plain object, so the check `!countMap[key]`
consults the prototype chain: for these keys the lookup yields a function
(or, for `__proto__`, the prototype object itself), which is truthy, so no
own property is ever created for them and `countMap[key].count++` mutates
a shared prototype value that `Object.values` never sees. -/
def protoKeys : List String :=
  ["constructor", "hasOwnProperty", "isPrototypeOf", "propertyIsEnumerable",
   "toLocaleString", "toString", "valueOf", "__proto__",
   "__defineGetter__", "__defineSetter__", "__lookupGetter__", "__lookupSetter__"]

/-- Decimal digit test, for property-key classification. -/
def isDigitCharB (c : Char) : Bool := 48 ≤ c.toNat && c.toNat ≤ 57

/-- Numeric value of a property key consisting of decimal digits. -/
def keyNumVal (s : String) : Nat := valBE s.data

/-- Whether the string is a canonical array-index property key: the
shortest decimal numeral of an integer below `2^32 - 1`.  JavaScript
objects enumerate such own keys before all others, in ascending numeric
order. -/
def isArrayIndexKey (s : String) : Bool :=
  match s.data with
  | [] => false
  | c :: cs =>
    (c :: cs).all isDigitCharB && (c != '0' || cs.isEmpty) &&
      keyNumVal s < 4294967295

/-- One step of the `countMap` construction: bump the count of the
outfit's signature group, creating the group (with this outfit as its
representative) on first encounter.  A signature colliding with an
`Object.prototype` member looks present to `!countMap[key]` and never
creates a group; other groups are kept in creation order. -/
def addOutfit (m : List (String × Nat × OutfitEntry)) (o : OutfitEntry) :
    List (String × Nat × OutfitEntry) :=
  let k := signature o
  if k ∈ protoKeys then m
  else if m.any (fun e => e.1 == k) then
    m.map (fun e => if e.1 == k then (e.1, e.2.1 + 1, e.2.2) else e)
  else m ++ [(k, 1, o)]

/-- The `countMap` of `getMostWornThisMonth`, as a list of
(signature, count, representative) groups in creation order.  Note this
is the record's own property set, not yet its enumeration order:
`Object.values` reorders array-index-like keys (see `enumGroups`). -/
def groupBySignature (outfits : List OutfitEntry) :
    List (String × Nat × OutfitEntry) :=
  outfits.foldl addOutfit []

/-- Descending-count comparison: the comparator
`(a, b) => b.count - a.count` of the final sort. -/
def CntGe (a b : String × Nat × OutfitEntry) : Prop := b.2.1 ≤ a.2.1

instance : DecidableRel CntGe := fun a b =>
  inferInstanceAs (Decidable (b.2.1 ≤ a.2.1))

/-- Ascending numeric order on array-index-like keys. -/
def IdxLe (a b : String × Nat × OutfitEntry) : Prop :=
  keyNumVal a.1 ≤ keyNumVal b.1

instance : DecidableRel IdxLe := fun a b =>
  inferInstanceAs (Decidable (keyNumVal a.1 ≤ keyNumVal b.1))

/-- `Object.values(countMap)`: own properties with array-index-like keys
first, in ascending numeric order, then the remaining own properties in
creation order. -/
def enumGroups (m : List (String × Nat × OutfitEntry)) :
    List (String × Nat × OutfitEntry) :=
  List.insertionSort IdxLe (m.filter (fun g => isArrayIndexKey g.1)) ++
    m.filter (fun g => !isArrayIndexKey g.1)

/-- The winning group of `getMostWornThisMonth`: head of the stable
descending-count sort of the enumerated signature groups, `none` if the
month has no outfits. -/
def bestGroup (outfits : List OutfitEntry) (year : Int) (month : Nat) :
    Option (String × Nat × OutfitEntry) :=
  if (monthFilter outfits year month).isEmpty then none
  else (List.insertionSort CntGe
    (enumGroups (groupBySignature (monthFilter outfits year month)))).head?

/-- `getMostWornThisMonth` from `calendar.tsx`, with the outfit snapshot
and reference year/month as explicit arguments: returns the winning
group's `previewImage` and count, or `none` for an empty month. -/
def getMostWornThisMonth (outfits : List OutfitEntry) (year : Int) (month : Nat) :
    Option (String × Nat) :=
  (bestGroup outfits year month).map (fun g => (g.2.2.previewImage, g.2.1))

/-- First element of a group list attaining the maximal count (earlier
elements win ties): the value a stable descending sort puts first. -/
def firstMax : List (String × Nat × OutfitEntry) → Option (String × Nat × OutfitEntry)
  | [] => none
  | g :: gs =>
    match firstMax gs with
    | none => some g
    | some h => if g.2.1 < h.2.1 then some h else some g

/-! ### Invariants of the signature grouping -/

/-- Index of the first outfit with the given signature. -/
def posOf (os : List OutfitEntry) (k : String) : Nat :=
  os.findIdx (fun o => signature o == k)

theorem posOf_lt_length {os : List OutfitEntry} {k : String} :
    posOf os k < os.length ↔ ∃ o ∈ os, signature o = k := by
  unfold posOf
  rw [List.findIdx_lt_length]
  simp only [beq_iff_eq]

theorem posOf_append_left {os t : List OutfitEntry} {k : String}
    (h : ∃ o ∈ os, signature o = k) : posOf (os ++ t) k = posOf os k := by
  unfold posOf
  rw [List.findIdx_append, if_pos]
  exact posOf_lt_length.mpr h

theorem posOf_append_new {os : List OutfitEntry} {o : OutfitEntry}
    (h : ¬ ∃ o' ∈ os, signature o' = signature o) :
    posOf (os ++ [o]) (signature o) = os.length := by
  unfold posOf
  rw [List.findIdx_append, if_neg]
  · simp [List.findIdx_cons]
  · intro hlt
    exact h (posOf_lt_length.mp hlt)

/-- The count-bump step applied to one group entry. -/
def bumpIf (k : String) (g : String × Nat × OutfitEntry) : String × Nat × OutfitEntry :=
  if g.1 == k then (g.1, g.2.1 + 1, g.2.2) else g

theorem bumpIf_fst (k : String) (g : String × Nat × OutfitEntry) :
    (bumpIf k g).1 = g.1 := by
  unfold bumpIf; split_ifs <;> rfl

theorem bumpIf_rep (k : String) (g : String × Nat × OutfitEntry) :
    (bumpIf k g).2.2 = g.2.2 := by
  unfold bumpIf; split_ifs <;> rfl

theorem addOutfit_eq (m : List (String × Nat × OutfitEntry)) (o : OutfitEntry) :
    addOutfit m o =
      if signature o ∈ protoKeys then m
      else if m.any (fun e => e.1 == signature o) then m.map (bumpIf (signature o))
      else m ++ [(signature o, 1, o)] := rfl

/-- The bundled invariant of the `countMap` construction: representatives
are the first outfit per signature, group keys are exactly the
non-prototype-colliding signatures occurring in the input, and groups are
listed in first-occurrence order. -/
def GroupsInv (os : List OutfitEntry) (G : List (String × Nat × OutfitEntry)) : Prop :=
  (∀ g ∈ G, os.find? (fun o => signature o == g.1) = some g.2.2) ∧
  (∀ g ∈ G, ∃ o ∈ os, signature o = g.1) ∧
  (∀ g ∈ G, g.1 ∉ protoKeys) ∧
  (∀ o ∈ os, signature o ∉ protoKeys → ∃ g ∈ G, g.1 = signature o) ∧
  G.Pairwise (fun g g' => posOf os g.1 < posOf os g'.1)

theorem groupBySignature_concat (os : List OutfitEntry) (o : OutfitEntry) :
    groupBySignature (os ++ [o]) = addOutfit (groupBySignature os) o :=
  List.foldl_concat addOutfit [] o os

theorem groupBySignature_inv (os : List OutfitEntry) :
    GroupsInv os (groupBySignature os) := by
  induction os using List.reverseRecOn with
  | nil =>
    refine ⟨?_, ?_, ?_, ?_, ?_⟩ <;> simp [groupBySignature]
  | append_singleton os o ih =>
    obtain ⟨ihRep, ihKeys, ihProto, ihCompl, ihOrd⟩ := ih
    rw [groupBySignature_concat, addOutfit_eq]
    set G := groupBySignature os with hG
    have hstable : ∀ g ∈ G, posOf (os ++ [o]) g.1 = posOf os g.1 :=
      fun g hg => posOf_append_left (ihKeys g hg)
    have hRepLift : ∀ g ∈ G,
        (os ++ [o]).find? (fun o' => signature o' == g.1) = some g.2.2 := by
      intro g hg
      rw [List.find?_append, ihRep g hg]
      rfl
    have hKeysLift : ∀ g ∈ G, ∃ o' ∈ os ++ [o], signature o' = g.1 := by
      intro g hg
      obtain ⟨o', ho', hsig⟩ := ihKeys g hg
      exact ⟨o', List.mem_append_left _ ho', hsig⟩
    have hOrdLift : G.Pairwise
        (fun g g' => posOf (os ++ [o]) g.1 < posOf (os ++ [o]) g'.1) := by
      refine List.Pairwise.imp_of_mem ?_ ihOrd
      intro a b ha hb hab
      rw [hstable a ha, hstable b hb]
      exact hab
    by_cases hproto : signature o ∈ protoKeys
    · -- signature collides with an Object.prototype member: nothing changes
      rw [if_pos hproto]
      refine ⟨hRepLift, hKeysLift, ihProto, ?_, hOrdLift⟩
      intro o' ho' hnp
      rw [List.mem_append] at ho'
      rcases ho' with ho' | ho'
      · exact ihCompl o' ho' hnp
      · rw [List.mem_singleton] at ho'
        rw [ho'] at hnp
        exact absurd hproto hnp
    rw [if_neg hproto]
    by_cases hmem : G.any (fun e => e.1 == signature o) = true
    · -- existing signature: counts are bumped, keys and representatives kept
      rw [if_pos hmem]
      refine ⟨?_, ?_, ?_, ?_, ?_⟩
      · intro g' hg'
        rw [List.mem_map] at hg'
        obtain ⟨g, hg, rfl⟩ := hg'
        simp only [bumpIf_fst, bumpIf_rep]
        exact hRepLift g hg
      · intro g' hg'
        rw [List.mem_map] at hg'
        obtain ⟨g, hg, rfl⟩ := hg'
        rw [bumpIf_fst]
        exact hKeysLift g hg
      · intro g' hg'
        rw [List.mem_map] at hg'
        obtain ⟨g, hg, rfl⟩ := hg'
        rw [bumpIf_fst]
        exact ihProto g hg
      · intro o' ho' hnp
        rw [List.mem_append] at ho'
        rcases ho' with ho' | ho'
        · obtain ⟨g, hg, hgk⟩ := ihCompl o' ho' hnp
          exact ⟨bumpIf (signature o) g, List.mem_map_of_mem _ hg,
            by rw [bumpIf_fst]; exact hgk⟩
        · rw [List.mem_singleton] at ho'
          rw [List.any_eq_true] at hmem
          obtain ⟨e, he, hek⟩ := hmem
          rw [beq_iff_eq] at hek
          refine ⟨bumpIf (signature o) e, List.mem_map_of_mem _ he, ?_⟩
          rw [bumpIf_fst, ho']
          exact hek
      · refine List.Pairwise.map _ ?_ hOrdLift
        intro a b hab
        rw [bumpIf_fst, bumpIf_fst]
        exact hab
    · -- new signature: a fresh group is appended at the end
      rw [if_neg hmem]
      have hnew : ¬ ∃ o' ∈ os, signature o' = signature o := by
        rintro ⟨o', ho', hsig⟩
        obtain ⟨g, hg, hgk⟩ := ihCompl o' ho' (by rw [hsig]; exact hproto)
        apply hmem
        rw [List.any_eq_true]
        exact ⟨g, hg, by rw [beq_iff_eq, hgk, hsig]⟩
      refine ⟨?_, ?_, ?_, ?_, ?_⟩
      · intro g' hg'
        rw [List.mem_append, List.mem_singleton] at hg'
        rcases hg' with hg' | hg'
        · exact hRepLift g' hg'
        · subst hg'
          rw [List.find?_append]
          have hnone : os.find?
              (fun o' => signature o' == (signature o, 1, o).1) = none := by
            rw [List.find?_eq_none]
            intro o' ho'
            simp only [beq_eq_false_iff_ne, ne_eq]
            exact fun hc => hnew ⟨o', ho', by simpa using hc⟩
          rw [hnone]
          simp [List.find?_cons]
      · intro g' hg'
        rw [List.mem_append, List.mem_singleton] at hg'
        rcases hg' with hg' | hg'
        · exact hKeysLift g' hg'
        · subst hg'
          exact ⟨o, List.mem_append_right _ (List.mem_singleton_self o), rfl⟩
      · intro g' hg'
        rw [List.mem_append, List.mem_singleton] at hg'
        rcases hg' with hg' | hg'
        · exact ihProto g' hg'
        · subst hg'
          exact hproto
      · intro o' ho' hnp
        rw [List.mem_append] at ho'
        rcases ho' with ho' | ho'
        · obtain ⟨g, hg, hgk⟩ := ihCompl o' ho' hnp
          exact ⟨g, List.mem_append_left _ hg, hgk⟩
        · rw [List.mem_singleton] at ho'
          refine ⟨(signature o, 1, o),
            List.mem_append_right _ (List.mem_singleton_self _), ?_⟩
          rw [ho']
      · rw [List.pairwise_append]
        refine ⟨hOrdLift, List.pairwise_singleton _ _, ?_⟩
        intro a ha b hb
        rw [List.mem_singleton] at hb
        subst hb
        have h1 : posOf (os ++ [o]) a.1 < os.length := by
          rw [hstable a ha]
          have := posOf_lt_length.mpr (ihKeys a ha)
          omega
        have h2 : posOf (os ++ [o]) (signature o, 1, o).1 = os.length :=
          posOf_append_new hnew
        omega

/-! ### The head of the stable descending sort -/

theorem firstMax_eq_none {l : List (String × Nat × OutfitEntry)}
    (h : firstMax l = none) : l = [] := by
  cases l with
  | nil => rfl
  | cons x xs =>
    exfalso
    cases hfm : firstMax xs with
    | none => simp [firstMax, hfm] at h
    | some g =>
      simp only [firstMax, hfm] at h
      split_ifs at h

theorem firstMax_split : ∀ (l : List (String × Nat × OutfitEntry)) g,
    firstMax l = some g → ∃ l₁ l₂, l = l₁ ++ g :: l₂ ∧ ∀ x ∈ l₁, x.2.1 < g.2.1 := by
  intro l
  induction l with
  | nil => intro g h; simp [firstMax] at h
  | cons x xs ih =>
    intro g h
    cases hfm : firstMax xs with
    | none =>
      simp only [firstMax, hfm, Option.some.injEq] at h
      subst h
      exact ⟨[], xs, rfl, by simp⟩
    | some m =>
      simp only [firstMax, hfm] at h
      split_ifs at h with hlt
      · simp only [Option.some.injEq] at h
        subst h
        obtain ⟨l₁, l₂, hsplit, hl₁⟩ := ih m hfm
        refine ⟨x :: l₁, l₂, by simp [hsplit], ?_⟩
        intro z hz
        rw [List.mem_cons] at hz
        rcases hz with rfl | hz
        · exact hlt
        · exact hl₁ z hz
      · simp only [Option.some.injEq] at h
        subst h
        exact ⟨[], xs, rfl, by simp⟩

theorem firstMax_max : ∀ (l : List (String × Nat × OutfitEntry)) g,
    firstMax l = some g → ∀ x ∈ l, x.2.1 ≤ g.2.1 := by
  intro l
  induction l with
  | nil => intro g h x hx; simp at hx
  | cons x xs ih =>
    intro g h z hz
    cases hfm : firstMax xs with
    | none =>
      simp only [firstMax, hfm, Option.some.injEq] at h
      subst h
      have hxs := firstMax_eq_none hfm
      subst hxs
      rw [List.mem_singleton] at hz
      subst hz
      exact le_rfl
    | some m =>
      simp only [firstMax, hfm] at h
      rw [List.mem_cons] at hz
      split_ifs at h with hlt
      · simp only [Option.some.injEq] at h
        subst h
        rcases hz with rfl | hz
        · exact le_of_lt hlt
        · exact ih m hfm z hz
      · simp only [Option.some.injEq] at h
        subst h
        rcases hz with rfl | hz
        · exact le_rfl
        · exact le_trans (ih m hfm z hz) (by omega)

theorem head_insertionSort_eq_firstMax :
    ∀ l : List (String × Nat × OutfitEntry),
      (List.insertionSort CntGe l).head? = firstMax l := by
  intro l
  induction l with
  | nil => rfl
  | cons x xs ih =>
    simp only [List.insertionSort]
    cases hs : List.insertionSort CntGe xs with
    | nil =>
      have hxs : xs = [] := by
        have hperm := List.perm_insertionSort CntGe xs
        rw [hs] at hperm
        exact (List.Perm.nil_eq hperm).symm
      subst hxs
      simp [List.orderedInsert, firstMax]
    | cons y t =>
      rw [hs] at ih
      simp only [List.head?_cons] at ih
      simp only [firstMax, ← ih]
      by_cases hc : CntGe x y
      · rw [List.orderedInsert, if_pos hc]
        have : ¬ x.2.1 < y.2.1 := by
          unfold CntGe at hc
          omega
        simp [this]
      · rw [List.orderedInsert, if_neg hc]
        have hlt : x.2.1 < y.2.1 := by
          unfold CntGe at hc
          omega
        simp only [List.head?_cons, if_pos hlt]

/-- `Object.values` enumeration reorders but neither adds nor removes
groups. -/
theorem mem_enumGroups {g : String × Nat × OutfitEntry}
    {m : List (String × Nat × OutfitEntry)} : g ∈ enumGroups m ↔ g ∈ m := by
  unfold enumGroups
  rw [List.mem_append, (List.perm_insertionSort IdxLe _).mem_iff]
  constructor
  · rintro (h | h) <;> exact (List.mem_filter.mp h).1
  · intro h
    by_cases hi : isArrayIndexKey g.1 = true
    · exact Or.inl (List.mem_filter.mpr ⟨h, hi⟩)
    · exact Or.inr (List.mem_filter.mpr ⟨h, by simp [hi]⟩)

/-- When no group key is array-index-like, `Object.values` enumerates the
groups in pure creation order. -/
theorem enumGroups_eq_of_no_index {m : List (String × Nat × OutfitEntry)}
    (h : ∀ g ∈ m, isArrayIndexKey g.1 = false) : enumGroups m = m := by
  unfold enumGroups
  have h1 : m.filter (fun g => isArrayIndexKey g.1) = [] := by
    rw [List.filter_eq_nil_iff]
    intro a ha
    simp [h a ha]
  have h2 : m.filter (fun g => !isArrayIndexKey g.1) = m := by
    rw [List.filter_eq_self]
    intro a ha
    simp [h a ha]
  rw [h1, h2]
  rfl

/-! ### Invariance of the most-worn computation under garment permutation -/

/-- Two outfits equal up to a permutation of their `garmentIds` lists. -/
def PermutedGarments (a b : OutfitEntry) : Prop :=
  a.mongoId = b.mongoId ∧ a.userId = b.userId ∧ a.date = b.date ∧
  a.garmentIds.Perm b.garmentIds ∧ a.previewImage = b.previewImage

/-- What the most-worn computation observes about an outfit: its date, its
signature, and its preview image. -/
def OutfitSim (a b : OutfitEntry) : Prop :=
  a.date = b.date ∧ signature a = signature b ∧ a.previewImage = b.previewImage

theorem signature_eq_of_perm {a b : OutfitEntry}
    (h : a.garmentIds.Perm b.garmentIds) : signature a = signature b := by
  unfold signature
  congr 1
  refine List.eq_of_perm_of_sorted ?_ (List.sorted_insertionSort StrLe _)
    (List.sorted_insertionSort StrLe _)
  exact (List.perm_insertionSort StrLe _).trans
    (h.trans (List.perm_insertionSort StrLe _).symm)

theorem outfitSim_of_permuted {a b : OutfitEntry} (h : PermutedGarments a b) :
    OutfitSim a b :=
  ⟨h.2.2.1, signature_eq_of_perm h.2.2.2.1, h.2.2.2.2⟩

/-- What the most-worn computation observes about a group. -/
def GroupSim (g g' : String × Nat × OutfitEntry) : Prop :=
  g.1 = g'.1 ∧ g.2.1 = g'.2.1 ∧ g.2.2.previewImage = g'.2.2.previewImage

theorem monthFilter_sim {os₁ os₂ : List OutfitEntry} {y : Int} {m : Nat}
    (h : List.Forall₂ OutfitSim os₁ os₂) :
    List.Forall₂ OutfitSim (monthFilter os₁ y m) (monthFilter os₂ y m) := by
  unfold monthFilter
  induction h with
  | nil => exact List.Forall₂.nil
  | cons h₁ h₂ ih =>
    rename_i a b l₁ l₂
    have hp : (a.date.year == y && a.date.month == m) =
        (b.date.year == y && b.date.month == m) := by rw [h₁.1]
    simp only [List.filter_cons]
    rw [hp]
    split
    · exact List.Forall₂.cons h₁ ih
    · exact ih

theorem any_key_sim {m₁ m₂ : List (String × Nat × OutfitEntry)}
    (h : List.Forall₂ GroupSim m₁ m₂) (k : String) :
    m₁.any (fun e => e.1 == k) = m₂.any (fun e => e.1 == k) := by
  induction h with
  | nil => rfl
  | cons h₁ h₂ ih => simp only [List.any_cons, ih, h₁.1]

theorem bumpIf_sim {k : String} {a b : String × Nat × OutfitEntry}
    (h : GroupSim a b) : GroupSim (bumpIf k a) (bumpIf k b) := by
  obtain ⟨hk, hcnt, hprev⟩ := h
  unfold bumpIf
  rw [hk]
  split_ifs with hc
  · exact ⟨rfl, by rw [hcnt], hprev⟩
  · exact ⟨hk, hcnt, hprev⟩

theorem map_bumpIf_sim {k : String} {m₁ m₂ : List (String × Nat × OutfitEntry)}
    (hm : List.Forall₂ GroupSim m₁ m₂) :
    List.Forall₂ GroupSim (m₁.map (bumpIf k)) (m₂.map (bumpIf k)) := by
  induction hm with
  | nil => exact List.Forall₂.nil
  | cons h₁ h₂ ih =>
    simp only [List.map_cons]
    exact List.Forall₂.cons (bumpIf_sim h₁) ih

theorem addOutfit_sim {m₁ m₂ : List (String × Nat × OutfitEntry)}
    {o₁ o₂ : OutfitEntry} (hm : List.Forall₂ GroupSim m₁ m₂)
    (ho : OutfitSim o₁ o₂) :
    List.Forall₂ GroupSim (addOutfit m₁ o₁) (addOutfit m₂ o₂) := by
  rw [addOutfit_eq, addOutfit_eq, ho.2.1, any_key_sim hm (signature o₂)]
  split
  · exact hm
  · split
    · exact map_bumpIf_sim hm
    · exact List.rel_append hm
        (List.Forall₂.cons ⟨rfl, rfl, ho.2.2⟩ List.Forall₂.nil)

theorem groupBySignature_sim {os₁ os₂ : List OutfitEntry}
    (h : List.Forall₂ OutfitSim os₁ os₂) :
    List.Forall₂ GroupSim (groupBySignature os₁) (groupBySignature os₂) := by
  unfold groupBySignature
  have general : ∀ {l₁ l₂ : List OutfitEntry}, List.Forall₂ OutfitSim l₁ l₂ →
      ∀ acc₁ acc₂, List.Forall₂ GroupSim acc₁ acc₂ →
      List.Forall₂ GroupSim (l₁.foldl addOutfit acc₁) (l₂.foldl addOutfit acc₂) := by
    intro l₁ l₂ hl
    induction hl with
    | nil => intro acc₁ acc₂ hacc; exact hacc
    | cons h₁ h₂ ih =>
      intro acc₁ acc₂ hacc
      exact ih _ _ (addOutfit_sim hacc h₁)
  exact general h [] [] List.Forall₂.nil

theorem orderedInsert_simR
    (r : (String × Nat × OutfitEntry) → (String × Nat × OutfitEntry) → Prop)
    [DecidableRel r]
    (hr : ∀ a b x y, GroupSim a b → GroupSim x y → (r a x ↔ r b y))
    {a b : String × Nat × OutfitEntry}
    {l₁ l₂ : List (String × Nat × OutfitEntry)} (hab : GroupSim a b)
    (hl : List.Forall₂ GroupSim l₁ l₂) :
    List.Forall₂ GroupSim (List.orderedInsert r a l₁)
      (List.orderedInsert r b l₂) := by
  induction hl with
  | nil => exact List.Forall₂.cons hab List.Forall₂.nil
  | cons h₁ h₂ ih =>
    rename_i x y t₁ t₂
    have hiff : r a x ↔ r b y := hr a b x y hab h₁
    by_cases hc : r a x
    · rw [List.orderedInsert, if_pos hc, List.orderedInsert, if_pos (hiff.mp hc)]
      exact List.Forall₂.cons hab (List.Forall₂.cons h₁ h₂)
    · rw [List.orderedInsert, if_neg hc, List.orderedInsert,
        if_neg (fun hy => hc (hiff.mpr hy))]
      exact List.Forall₂.cons h₁ ih

theorem insertionSort_simR
    (r : (String × Nat × OutfitEntry) → (String × Nat × OutfitEntry) → Prop)
    [DecidableRel r]
    (hr : ∀ a b x y, GroupSim a b → GroupSim x y → (r a x ↔ r b y))
    {l₁ l₂ : List (String × Nat × OutfitEntry)}
    (h : List.Forall₂ GroupSim l₁ l₂) :
    List.Forall₂ GroupSim (List.insertionSort r l₁)
      (List.insertionSort r l₂) := by
  induction h with
  | nil => exact List.Forall₂.nil
  | cons h₁ h₂ ih =>
    simp only [List.insertionSort]
    exact orderedInsert_simR r hr h₁ ih

theorem filter_key_sim (q : (String × Nat × OutfitEntry) → Bool)
    (hq : ∀ a b, GroupSim a b → q a = q b)
    {m₁ m₂ : List (String × Nat × OutfitEntry)}
    (h : List.Forall₂ GroupSim m₁ m₂) :
    List.Forall₂ GroupSim (m₁.filter q) (m₂.filter q) := by
  induction h with
  | nil => exact List.Forall₂.nil
  | cons h₁ h₂ ih =>
    simp only [List.filter_cons]
    rw [hq _ _ h₁]
    split
    · exact List.Forall₂.cons h₁ ih
    · exact ih

theorem enumGroups_sim {m₁ m₂ : List (String × Nat × OutfitEntry)}
    (h : List.Forall₂ GroupSim m₁ m₂) :
    List.Forall₂ GroupSim (enumGroups m₁) (enumGroups m₂) := by
  unfold enumGroups
  refine List.rel_append ?_ ?_
  · refine insertionSort_simR IdxLe ?_
      (filter_key_sim _ (fun a b hab => by rw [hab.1]) h)
    intro a b x y hab hxy
    unfold IdxLe
    rw [hab.1, hxy.1]
  · exact filter_key_sim _ (fun a b hab => by rw [hab.1]) h

theorem head_observe_sim {l₁ l₂ : List (String × Nat × OutfitEntry)}
    (h : List.Forall₂ GroupSim l₁ l₂) :
    Option.map (fun g => (g.2.2.previewImage, g.2.1)) l₁.head? =
      Option.map (fun g => (g.2.2.previewImage, g.2.1)) l₂.head? := by
  cases h with
  | nil => rfl
  | cons h₁ h₂ =>
    simp only [List.head?_cons, Option.map_some']
    rw [h₁.2.1, h₁.2.2]

theorem getMostWorn_sim {os₁ os₂ : List OutfitEntry} {y : Int} {m : Nat}
    (h : List.Forall₂ OutfitSim os₁ os₂) :
    getMostWornThisMonth os₁ y m = getMostWornThisMonth os₂ y m := by
  unfold getMostWornThisMonth bestGroup
  have hf := monthFilter_sim (y := y) (m := m) h
  have hg := insertionSort_simR CntGe
    (fun a b x y hab hxy => by unfold CntGe; rw [hab.2.1, hxy.2.1])
    (enumGroups_sim (groupBySignature_sim hf))
  by_cases he : (monthFilter os₁ y m).isEmpty = true
  · have he₂ : (monthFilter os₂ y m).isEmpty = true := by
      rw [List.isEmpty_iff_length_eq_zero] at he ⊢
      rw [← hf.length_eq]
      exact he
    rw [if_pos he, if_pos he₂]
  · have he₂ : ¬ (monthFilter os₂ y m).isEmpty = true := by
      rw [List.isEmpty_iff_length_eq_zero] at he ⊢
      rw [← hf.length_eq]
      exact he
    rw [if_neg he, if_neg he₂]
    exact head_observe_sim hg

/-! ### Last-write-wins lookup of the outfit index -/

theorem find?_eq_head?_filter (p : String × OutfitEntry → Bool)
    (l : List (String × OutfitEntry)) : l.find? p = (l.filter p).head? := by
  induction l with
  | nil => rfl
  | cons a t ih =>
    rw [List.find?_cons, List.filter_cons]
    cases hp : p a
    · simp only [hp, cond_false]
      exact ih
    · simp [hp]

theorem buildOutfitIndex_eq_reverse_map (outfits : List OutfitEntry) :
    buildOutfitIndex outfits =
      (outfits.map (fun o => (toDateKey o.date, o))).reverse := by
  unfold buildOutfitIndex
  suffices hgen : ∀ (l : List OutfitEntry) (acc : List (String × OutfitEntry)),
      l.foldl (fun m o => (toDateKey o.date, o) :: m) acc =
        (l.map (fun o => (toDateKey o.date, o))).reverse ++ acc by
    simpa using hgen outfits []
  intro l
  induction l with
  | nil => intro acc; rfl
  | cons o t ih =>
    intro acc
    rw [List.foldl_cons, ih, List.map_cons, List.reverse_cons, List.append_assoc]
    rfl

/-! ### The untyped failure on unparseable dates -/

/-- One raw outfit record as fetched, with the result of `new Date(o.date)`
attached: `none` models an Invalid Date (an unparseable date string). -/
structure RawOutfit where
  mongoId : String
  userId : String
  date : Option JSDate
  garmentIds : List String
  previewImage : String
deriving DecidableEq, Repr

/-- Errors observable from the aggregation code: the untyped `RangeError`
that `toISOString` throws on an Invalid Date, and the typed
`InvalidRecord(id)` error the specification postulates. -/
inductive JSError where
  | rangeError : JSError
  | invalidRecord : String → JSError
deriving DecidableEq, Repr

/-- `toDateKey` on a parse result: `date.toISOString()` throws an untyped
`RangeError` when the `Date` is invalid. -/
def toDateKeyE : Option JSDate → Except JSError String
  | none => Except.error JSError.rangeError
  | some d => Except.ok (toDateKey d)

/-- One assignment of the `outfitMap`-building `forEach`, on raw records. -/
def indexStepE (m : List (String × RawOutfit)) (o : RawOutfit) :
    Except JSError (List (String × RawOutfit)) :=
  (toDateKeyE o.date).map (fun k => (k, o) :: m)

/-- The `outfitMap` construction over raw records: the first record whose
date fails to parse aborts the whole computation with the thrown error. -/
def buildOutfitIndexE (outfits : List RawOutfit) :
    Except JSError (List (String × RawOutfit)) :=
  outfits.foldlM indexStepE []

/-- Is the outcome the typed `InvalidRecord` error the spec postulates? -/
def isInvalidRecordError {α : Type} : Except JSError α → Bool
  | Except.error (JSError.invalidRecord _) => true
  | _ => false

theorem buildE_err : ∀ (os : List RawOutfit) (acc : List (String × RawOutfit)),
    (∃ o ∈ os, o.date = none) →
    List.foldlM indexStepE acc os = Except.error JSError.rangeError := by
  intro os
  induction os with
  | nil => intro acc h; simp at h
  | cons o t ih =>
    intro acc h
    rw [List.foldlM_cons]
    cases hd : o.date with
    | none =>
      have hstep : indexStepE acc o = Except.error JSError.rangeError := by
        unfold indexStepE
        rw [hd]
        rfl
      rw [hstep]
      rfl
    | some d =>
      have hstep : indexStepE acc o = Except.ok ((toDateKey d, o) :: acc) := by
        unfold indexStepE
        rw [hd]
        rfl
      rw [hstep]
      obtain ⟨o', ho', hnone⟩ := h
      rcases List.mem_cons.mp ho' with rfl | hmem
      · rw [hd] at hnone; exact absurd hnone (by simp)
      · exact ih _ ⟨o', hmem, hnone⟩

theorem buildE_ok : ∀ (os : List RawOutfit) (acc : List (String × RawOutfit)),
    (∀ o ∈ os, o.date ≠ none) →
    ∃ r, List.foldlM indexStepE acc os = Except.ok r := by
  intro os
  induction os with
  | nil => intro acc _; exact ⟨acc, rfl⟩
  | cons o t ih =>
    intro acc h
    rw [List.foldlM_cons]
    cases hd : o.date with
    | none => exact absurd hd (h o (List.mem_cons_self o t))
    | some d =>
      have hstep : indexStepE acc o = Except.ok ((toDateKey d, o) :: acc) := by
        unfold indexStepE
        rw [hd]
        rfl
      rw [hstep]
      exact ih _ (fun o' ho' => h o' (List.mem_cons_of_mem o ho'))

/-! ### Concrete sample data for the specification scenarios -/

/-- A logged outfit on the given June 2025 day (zero-based month 5). -/
def juneEntry (day : Nat) : OutfitEntry :=
  { mongoId := "june", userId := "u", date := ⟨2025, 5, day, 43200000⟩,
    garmentIds := ["top", "skirt"], previewImage := "june-img" }

/-- 2025-06-12, noon. -/
def june12noon : JSDate := ⟨2025, 5, 12, 43200000⟩

def marchO1 : OutfitEntry :=
  { mongoId := "m1", userId := "u", date := ⟨2025, 2, 1, 0⟩,
    garmentIds := ["a", "b"], previewImage := "img-ab" }

def marchO2 : OutfitEntry :=
  { mongoId := "m2", userId := "u", date := ⟨2025, 2, 5, 0⟩,
    garmentIds := ["b", "a"], previewImage := "img-ba" }

def marchO3 : OutfitEntry :=
  { mongoId := "m3", userId := "u", date := ⟨2025, 2, 10, 0⟩,
    garmentIds := ["c"], previewImage := "img-c" }

def marchOutfits : List OutfitEntry := [marchO1, marchO2, marchO3]

/-- `marchO2` with its garment list written in the other order. -/
def marchO2sorted : OutfitEntry :=
  { mongoId := "m2", userId := "u", date := ⟨2025, 2, 5, 0⟩,
    garmentIds := ["a", "b"], previewImage := "img-ba" }

/-- A March outfit whose signature is the plain string key `b`. -/
def cexB : OutfitEntry :=
  { mongoId := "x1", userId := "u", date := ⟨2025, 2, 3, 0⟩,
    garmentIds := ["b"], previewImage := "img-b" }

/-- A March outfit whose signature is the array-index-like key `2`. -/
def cexNum : OutfitEntry :=
  { mongoId := "x2", userId := "u", date := ⟨2025, 2, 4, 0⟩,
    garmentIds := ["2"], previewImage := "img-2" }

/-- A raw record whose date string fails to parse. -/
def badRaw : RawOutfit :=
  { mongoId := "bad1", userId := "u", date := none, garmentIds := [],
    previewImage := "p" }

/-! ### Claim theorems -/

/-- C1: for all valid dates `d₁`, `d₂`, `dateKey(d₁) = dateKey(d₂)` iff
they fall on the same calendar day, independently of their time-of-day
components. -/
theorem dateKey_eq_iff_same_calendar_day (d₁ d₂ : JSDate)
    (h₁ : d₁.Valid) (h₂ : d₂.Valid) :
    toDateKey d₁ = toDateKey d₂ ↔ sameCalendarDay d₁ d₂ :=
  toDateKey_eq_iff h₁.1 (le_trans h₁.2.2.1 (daysInMonth_le _ _))
    h₂.1 (le_trans h₂.2.2.1 (daysInMonth_le _ _))

theorem dateKey_eq_iff_same_calendar_day_witness :
    (JSDate.mk 2025 5 12 3600000).Valid ∧ (JSDate.mk 2025 5 12 82800000).Valid ∧
    toDateKey ⟨2025, 5, 12, 3600000⟩ = toDateKey ⟨2025, 5, 12, 82800000⟩ :=
  ⟨by decide, by decide,
    (dateKey_eq_iff_same_calendar_day ⟨2025, 5, 12, 3600000⟩ ⟨2025, 5, 12, 82800000⟩
      (by decide) (by decide)).mpr ⟨rfl, rfl, rfl⟩⟩

/-- C2: `currentStreak` counts consecutive days walking back from today:
every step below the streak hits the index, the step at the streak is the
first miss, a missing today gives 0; with entries exactly for 2025-06-10,
2025-06-11 and 2025-06-12 and today = 2025-06-12 the result is 3, and
removing 2025-06-11 makes it 1. -/
theorem currentStreak_backward_walk :
    (∀ (idx : List (String × OutfitEntry)) (today : JSDate), today.Valid →
      ((indexFind idx (toDateKey today)).isNone = true → getStreak idx today = 0) ∧
      (∀ k, k < getStreak idx today →
        (indexFind idx (toDateKey (prevIter k today))).isSome = true) ∧
      (indexFind idx (toDateKey (prevIter (getStreak idx today) today))).isSome = false) ∧
    getStreak (buildOutfitIndex [juneEntry 10, juneEntry 11, juneEntry 12]) june12noon = 3 ∧
    getStreak (buildOutfitIndex [juneEntry 10, juneEntry 12]) june12noon = 1 := by
  refine ⟨?_, by decide, by decide⟩
  intro idx today hv
  exact ⟨getStreak_zero_of_miss idx today,
    fun k hk => getStreak_hits idx today hk,
    getStreak_miss idx today hv⟩

theorem currentStreak_backward_walk_witness :
    june12noon.Valid ∧
    (indexFind (buildOutfitIndex [juneEntry 10, juneEntry 11, juneEntry 12])
      (toDateKey (prevIter
        (getStreak (buildOutfitIndex [juneEntry 10, juneEntry 11, juneEntry 12]) june12noon)
        june12noon))).isSome = false :=
  ⟨by decide,
    (currentStreak_backward_walk.1 (buildOutfitIndex [juneEntry 10, juneEntry 11, juneEntry 12])
      june12noon (by decide)).2.2⟩

/-- Leading blanks of a month grid are all blank cells. -/
theorem filter_isSome_replicate_none (n : Nat) :
    (List.replicate n (none : Option JSDate)).filter Option.isSome = [] := by
  induction n with
  | zero => rfl
  | succ m ih => simp [List.replicate_succ, ih]

/-- C3: `monthGrid(y, m)` is exactly the leading blanks given by the
weekday of the 1st (0 = Sunday), one cell per actual day of the month
(leap years included), and trailing blanks to a multiple of 7; its length
is divisible by 7 for every year and month, and February 2024 has exactly
29 day-cells. -/
theorem monthGrid_shape :
    (∀ (y : Int) (m : Nat),
      getMonthGrid y m =
        List.replicate (getDay y (m + 1) 1) none ++
          (List.range (daysInMonth y m)).map (fun i => some ⟨y, m, i + 1, 0⟩) ++
          List.replicate ((7 - (getDay y (m + 1) 1 + daysInMonth y m) % 7) % 7) none ∧
      (getMonthGrid y m).length % 7 = 0 ∧
      ((getMonthGrid y m).filter Option.isSome).length = daysInMonth y m) ∧
    ((getMonthGrid 2024 1).filter Option.isSome).length = 29 ∧
    (getMonthGrid 2024 1).length % 7 = 0 := by
  have hgen : ∀ (y : Int) (m : Nat),
      getMonthGrid y m =
        List.replicate (getDay y (m + 1) 1) none ++
          (List.range (daysInMonth y m)).map (fun i => some ⟨y, m, i + 1, 0⟩) ++
          List.replicate ((7 - (getDay y (m + 1) 1 + daysInMonth y m) % 7) % 7) none ∧
      (getMonthGrid y m).length % 7 = 0 ∧
      ((getMonthGrid y m).filter Option.isSome).length = daysInMonth y m := by
    intro y m
    have hlen : (List.replicate (getDay y (m + 1) 1) (none : Option JSDate) ++
        (List.range (daysInMonth y m)).map
          (fun i => some (JSDate.mk y m (i + 1) 0))).length =
        getDay y (m + 1) 1 + daysInMonth y m := by
      simp
    have hclosed : getMonthGrid y m =
        (List.replicate (getDay y (m + 1) 1) none ++
          (List.range (daysInMonth y m)).map
            (fun i => some (JSDate.mk y m (i + 1) 0))) ++
          List.replicate ((7 - (getDay y (m + 1) 1 + daysInMonth y m) % 7) % 7) none := by
      unfold getMonthGrid
      exact padBlanks_eq_append _ _ (by rw [hlen])
    refine ⟨by rw [hclosed, List.append_assoc], ?_, ?_⟩
    · rw [hclosed]
      simp only [List.length_append, List.length_replicate, List.length_map,
        List.length_range]
      omega
    · rw [hclosed]
      rw [List.filter_append, List.filter_append, filter_isSome_replicate_none,
        filter_isSome_replicate_none]
      rw [List.filter_eq_self.mpr]
      · simp
      · intro a ha
        rw [List.mem_map] at ha
        obtain ⟨i, _, rfl⟩ := ha
        rfl
  refine ⟨hgen, ?_, (hgen 2024 1).2.1⟩
  rw [(hgen 2024 1).2.2]
  decide

/-- C4: the result of `mostWornThisMonth` is invariant under permuting the
`garmentIds` list inside any single outfit, and on the March 2025 scenario
the winning group has signature `a,b` and count 2. -/
theorem mostWorn_permutation_invariant :
    (∀ (os₁ os₂ : List OutfitEntry) (y : Int) (m : Nat),
      List.Forall₂ PermutedGarments os₁ os₂ →
      getMostWornThisMonth os₁ y m = getMostWornThisMonth os₂ y m) ∧
    bestGroup marchOutfits 2025 2 = some ("a,b", 2, marchO1) ∧
    getMostWornThisMonth marchOutfits 2025 2 = some ("img-ab", 2) := by
  refine ⟨?_, by decide, by decide⟩
  intro os₁ os₂ y m h
  exact getMostWorn_sim (h.imp (fun a b hab => outfitSim_of_permuted hab))

theorem mostWorn_permutation_invariant_witness :
    List.Forall₂ PermutedGarments [marchO2] [marchO2sorted] ∧
    getMostWornThisMonth [marchO2] 2025 2 =
      getMostWornThisMonth [marchO2sorted] 2025 2 := by
  have hperm : List.Forall₂ PermutedGarments [marchO2] [marchO2sorted] :=
    List.Forall₂.cons ⟨rfl, rfl, rfl, List.Perm.swap "a" "b" [], rfl⟩ List.Forall₂.nil
  exact ⟨hperm, mostWorn_permutation_invariant.1 [marchO2] [marchO2sorted] 2025 2 hperm⟩

/-- C5 counterexample: with month outfits whose signatures are `b`
(encountered first) and `2` (encountered second), the two groups tie at
count 1, yet the returned group is the `2` group, whose representative
appears second in the filtered sequence: `Object.values` enumerates the
array-index-like key `2` before `b`, so the claimed first-occurrence
tie-break is false of the program. -/
theorem mostWorn_tiebreak_cex :
    bestGroup [cexB, cexNum] 2025 2 = some ("2", 1, cexNum) ∧
    ("b", 1, cexB) ∈ groupBySignature (monthFilter [cexB, cexNum] 2025 2) ∧
    posOf (monthFilter [cexB, cexNum] 2025 2) "b" <
      posOf (monthFilter [cexB, cexNum] 2025 2) "2" :=
  ⟨by decide, by decide, by decide⟩

/-- C5 (amended): for signatures that do not collide with
`Object.prototype` members, each group's representative is the first
outfit with that signature in the month-filtered sequence (colliding
signatures never form a group); `Object.values` enumerates groups with
array-index-like signatures first, in ascending numeric order, then the
rest in first-occurrence order; the returned group is the first group in
this enumeration order attaining the maximal count — which coincides with
the first-occurrence tie-break exactly when no group signature is
array-index-like. -/
theorem mostWorn_enumeration_tiebreak :
    ∀ (os : List OutfitEntry) (y : Int) (m : Nat),
      (∀ g ∈ groupBySignature (monthFilter os y m),
        (monthFilter os y m).find? (fun o => signature o == g.1) = some g.2.2 ∧
        g.1 ∉ protoKeys) ∧
      (∀ g, bestGroup os y m = some g →
        g ∈ groupBySignature (monthFilter os y m) ∧
        (∀ g' ∈ groupBySignature (monthFilter os y m), g'.2.1 ≤ g.2.1) ∧
        (∃ l₁ l₂,
          enumGroups (groupBySignature (monthFilter os y m)) = l₁ ++ g :: l₂ ∧
          ∀ g' ∈ l₁, g'.2.1 < g.2.1)) ∧
      ((∀ g ∈ groupBySignature (monthFilter os y m), isArrayIndexKey g.1 = false) →
        ∀ g, bestGroup os y m = some g →
          ∀ g' ∈ groupBySignature (monthFilter os y m), g'.2.1 = g.2.1 →
            posOf (monthFilter os y m) g.1 ≤ posOf (monthFilter os y m) g'.1) := by
  intro os y m
  obtain ⟨hRep, hKeys, hProto, hCompl, hOrd⟩ := groupBySignature_inv (monthFilter os y m)
  refine ⟨fun g hg => ⟨hRep g hg, hProto g hg⟩, ?_, ?_⟩
  · intro g hg
    unfold bestGroup at hg
    split_ifs at hg with he
    rw [head_insertionSort_eq_firstMax] at hg
    obtain ⟨l₁, l₂, hsplit, hl₁⟩ := firstMax_split _ g hg
    have hmemE : g ∈ enumGroups (groupBySignature (monthFilter os y m)) := by
      rw [hsplit]
      exact List.mem_append_right _ (List.mem_cons_self _ _)
    refine ⟨mem_enumGroups.mp hmemE, ?_, l₁, l₂, hsplit, hl₁⟩
    intro g' hg'
    exact firstMax_max _ g hg g' (mem_enumGroups.mpr hg')
  · intro hNoIdx g hg g' hg' hcnt
    have hEnum : enumGroups (groupBySignature (monthFilter os y m)) =
        groupBySignature (monthFilter os y m) := enumGroups_eq_of_no_index hNoIdx
    unfold bestGroup at hg
    split_ifs at hg with he
    rw [head_insertionSort_eq_firstMax, hEnum] at hg
    obtain ⟨l₁, l₂, hsplit, hl₁⟩ := firstMax_split _ g hg
    rw [hsplit] at hOrd
    rw [List.pairwise_append] at hOrd
    obtain ⟨_, hOrd2, _⟩ := hOrd
    rw [List.pairwise_cons] at hOrd2
    rw [hsplit, List.mem_append, List.mem_cons] at hg'
    rcases hg' with hin | rfl | hin
    · exact absurd hcnt (by have := hl₁ g' hin; omega)
    · exact le_rfl
    · exact le_of_lt (hOrd2.1 g' hin)

theorem mostWorn_enumeration_tiebreak_witness :
    bestGroup marchOutfits 2025 2 = some ("a,b", 2, marchO1) ∧
    ("a,b", 2, marchO1) ∈ groupBySignature (monthFilter marchOutfits 2025 2) :=
  ⟨by decide,
    ((mostWorn_enumeration_tiebreak marchOutfits 2025 2).2.1
      ("a,b", 2, marchO1) (by decide)).1⟩

/-- C6: when several outfits share a `dateKey`, the built index maps that
key to exactly the last such outfit in input order; in general the lookup
equals the last matching outfit of the input sequence. -/
theorem outfitIndex_last_wins (outfits : List OutfitEntry) (k : String) :
    indexFind (buildOutfitIndex outfits) k =
      (outfits.filter (fun o => toDateKey o.date == k)).getLast? := by
  rw [buildOutfitIndex_eq_reverse_map]
  unfold indexFind
  rw [find?_eq_head?_filter, List.filter_reverse, List.head?_reverse,
    List.filter_map, List.getLast?_map, Option.map_map]
  have h1 : ((fun p : String × OutfitEntry => p.2) ∘
      fun o : OutfitEntry => (toDateKey o.date, o)) = fun o => o := rfl
  have h2 : ((fun p : String × OutfitEntry => p.1 == k) ∘
      fun o : OutfitEntry => (toDateKey o.date, o)) =
      fun o => toDateKey o.date == k := rfl
  rw [h1, h2, Option.map_id']

/-- C7: the streak is monotone under removal of index entries: a subindex
never yields a larger streak. -/
theorem currentStreak_monotone (I J : List (String × OutfitEntry))
    (today : JSDate) (hJI : J.Sublist I) (hv : today.Valid) :
    getStreak J today ≤ getStreak I today :=
  getStreak_mono hJI hv

theorem currentStreak_monotone_witness :
    (buildOutfitIndex [juneEntry 10, juneEntry 12]).Sublist
      (buildOutfitIndex [juneEntry 10, juneEntry 11, juneEntry 12]) ∧
    june12noon.Valid ∧
    getStreak (buildOutfitIndex [juneEntry 10, juneEntry 12]) june12noon ≤
      getStreak (buildOutfitIndex [juneEntry 10, juneEntry 11, juneEntry 12]) june12noon :=
  ⟨by decide, by decide,
    currentStreak_monotone (buildOutfitIndex [juneEntry 10, juneEntry 11, juneEntry 12])
      (buildOutfitIndex [juneEntry 10, juneEntry 12]) june12noon (by decide) (by decide)⟩

/-- C8 (amended): a record whose date fails to parse makes the index
construction abort with the untyped `RangeError` thrown by `toISOString`;
the record is not silently skipped, but no typed `InvalidRecord` error
carrying the record's identifier is ever produced. -/
theorem invalidDate_untyped_rangeError (outfits : List RawOutfit) :
    (buildOutfitIndexE outfits = Except.error JSError.rangeError ↔
      ∃ o ∈ outfits, o.date = none) ∧
    isInvalidRecordError (buildOutfitIndexE outfits) = false := by
  constructor
  · constructor
    · intro h
      by_contra hno
      push_neg at hno
      obtain ⟨r, hr⟩ := buildE_ok outfits [] hno
      unfold buildOutfitIndexE at h
      rw [hr] at h
      exact absurd h (by simp)
    · exact fun h => buildE_err outfits [] h
  · by_cases hex : ∃ o ∈ outfits, o.date = none
    · rw [show buildOutfitIndexE outfits = Except.error JSError.rangeError from
        buildE_err outfits [] hex]
      rfl
    · push_neg at hex
      obtain ⟨r, hr⟩ := buildE_ok outfits [] hex
      unfold buildOutfitIndexE
      rw [hr]
      rfl

/-- C8 counterexample: on a concrete record with an unparseable date the
computation yields the untyped `RangeError`, not a typed `InvalidRecord`
error identifying the record. -/
theorem invalidDate_not_invalidRecord_cex :
    buildOutfitIndexE [badRaw] = Except.error JSError.rangeError ∧
    isInvalidRecordError (buildOutfitIndexE [badRaw]) = false ∧
    buildOutfitIndexE [badRaw] ≠ Except.error (JSError.invalidRecord "bad1") := by
  refine ⟨rfl, rfl, ?_⟩
  intro h
  have h' : Except.error (α := List (String × RawOutfit)) JSError.rangeError =
      Except.error (JSError.invalidRecord "bad1") := h
  simp at h'

/-- C9: the aggregation operations are deterministic pure functions of
their explicit snapshot and reference-date arguments: identical inputs
give identical outputs. -/
theorem aggregator_deterministic
    (idx₁ idx₂ : List (String × OutfitEntry)) (t₁ t₂ : JSDate)
    (os₁ os₂ : List OutfitEntry) (y₁ y₂ : Int) (m₁ m₂ : Nat)
    (hidx : idx₁ = idx₂) (ht : t₁ = t₂) (hos : os₁ = os₂)
    (hy : y₁ = y₂) (hm : m₁ = m₂) :
    getStreak idx₁ t₁ = getStreak idx₂ t₂ ∧
    getMostWornThisMonth os₁ y₁ m₁ = getMostWornThisMonth os₂ y₂ m₂ ∧
    getMonthGrid y₁ m₁ = getMonthGrid y₂ m₂ := by
  subst hidx ht hos hy hm
  exact ⟨rfl, rfl, rfl⟩

theorem aggregator_deterministic_witness :
    getStreak (buildOutfitIndex marchOutfits) june12noon =
      getStreak (buildOutfitIndex marchOutfits) june12noon ∧
    getMostWornThisMonth marchOutfits 2025 2 = getMostWornThisMonth marchOutfits 2025 2 ∧
    getMonthGrid 2025 2 = getMonthGrid 2025 2 :=
  aggregator_deterministic (buildOutfitIndex marchOutfits) (buildOutfitIndex marchOutfits)
    june12noon june12noon marchOutfits marchOutfits 2025 2025 2 2 rfl rfl rfl rfl rfl

/-- C10: the backward streak walk terminates with a first miss after at
most as many hits as the index has entries: the streak never exceeds the
number of index entries. -/
theorem currentStreak_terminates_bounded (idx : List (String × OutfitEntry))
    (today : JSDate) (hv : today.Valid) :
    getStreak idx today ≤ idx.length ∧
    (indexFind idx (toDateKey (prevIter (getStreak idx today) today))).isSome = false :=
  ⟨getStreak_le_length idx today hv, getStreak_miss idx today hv⟩

theorem currentStreak_terminates_bounded_witness :
    june12noon.Valid ∧
    getStreak (buildOutfitIndex [juneEntry 10, juneEntry 11, juneEntry 12]) june12noon ≤
      (buildOutfitIndex [juneEntry 10, juneEntry 11, juneEntry 12]).length :=
  ⟨by decide,
    (currentStreak_terminates_bounded
      (buildOutfitIndex [juneEntry 10, juneEntry 11, juneEntry 12]) june12noon
      (by decide)).1⟩
